import Mathlib

/-!
# Verification of the cardiomicscore risk-calculator core (`scripts.js`)

A shallow embedding of the algorithmic core of `scripts.js`:

* model-name canonicalization and combination enumeration
  (`canonicalizeModelName`, `generateModelCombinations`);
* the risk-calculation pipeline `calculateRisk` (form parsing, percentile
  resolution, feature standardization, linear predictor, baseline-survival
  selection, risk evaluation and display).

JS strings are embedded as `List Char`; JS objects used as string-keyed maps
are embedded as association lists (`lookupKV` / `setKV` / `removeKV` mirror
property read / write / delete, with insertion order preserved as in JS).
Finite JS numbers are embedded as rationals; the special values `NaN` and
`±Infinity` appear in the evaluator tail through the type `JSNum`.
-/

namespace CardioScore

/-! ## Model names (scripts.js 425-455)

`mapModelName`/`canonicalizeModelName`/`generateModelCombinations` operate on
JS strings, embedded here as `List Char`.  `split('+')` is `List.splitOn '+'`,
`join('+')` is `List.intercalate ['+']`, and the stable
`Array.prototype.sort(cmp)` with comparator `cmp a b = indexOf a - indexOf b`
is the stable `List.mergeSort` with boolean order `indexOf a ≤ indexOf b`. -/

/-- JS `Array.prototype.indexOf`: first index of `a` in `l`, `-1` if absent. -/
def jsIndexOf (l : List (List Char)) (a : List Char) : Int :=
  match l with
  | [] => -1
  | x :: xs =>
    if a = x then 0
    else
      let r := jsIndexOf xs a
      if r = -1 then -1 else r + 1

/-- The fixed add-on priority list `['PRS', 'MetScore', 'ProScore']`
(scripts.js line 433). -/
def omicsOrder : List (List Char) :=
  ["PRS".data, "MetScore".data, "ProScore".data]

/-- Boolean order induced by the JS sort comparator
`omicsOrder.indexOf(a) - omicsOrder.indexOf(b)` (scripts.js line 434). -/
def omicsLe (a b : List Char) : Bool :=
  jsIndexOf omicsOrder a ≤ jsIndexOf omicsOrder b

/-- Embedding of `canonicalizeModelName` (scripts.js 425-437).
`!modelName` is the empty-string falsy test, `includes('+')` is membership of
the character `'+'`, and `parts[0]` / `parts.slice(1)` are `headI` / `tail`
(the split of any string is nonempty). -/
def canonicalizeModelName (modelName : List Char) : List Char :=
  if modelName = [] ∨ '+' ∉ modelName then modelName
  else
    let parts := modelName.splitOn '+'
    let baseModel := parts.headI
    let omics := parts.tail
    List.intercalate ['+'] (baseModel :: omics.mergeSort omicsLe)

/-- The subset of `arr` selected by the bits of `i`: bit `j` of `i` selects
`arr[j]`, exactly the inner loop of `generateModelCombinations`
(scripts.js 444-450). -/
def bitSubset : Nat → List (List Char) → List (List Char)
  | _, [] => []
  | i, a :: rest => (if i % 2 = 1 then [a] else []) ++ bitSubset (i / 2) rest

/-- Embedding of `generateModelCombinations` (scripts.js 439-455): for each
bitmask `i < 2^n` build `[baseModel, ...subset].join('+')` and canonicalize. -/
def generateModelCombinations (baseModel : List Char)
    (omicsArray : List (List Char)) : List (List Char) :=
  if baseModel = [] then []
  else
    (List.range (2 ^ omicsArray.length)).map fun i =>
      canonicalizeModelName
        (List.intercalate ['+'] (baseModel :: bitSubset i omicsArray))

/-! ### Facts about `splitOn` and `intercalate` -/

theorem splitOnP_sep_not_mem {α : Type*} (p : α → Bool) (xs : List α) :
    ∀ l ∈ xs.splitOnP p, ∀ x ∈ l, p x = false := by
  induction xs with
  | nil =>
    intro l hl x hx
    rw [List.splitOnP_nil] at hl
    simp only [List.mem_singleton] at hl
    subst hl
    simp at hx
  | cons a as ih =>
    intro l hl x hx
    rw [List.splitOnP_cons] at hl
    by_cases hpa : p a = true
    · rw [if_pos hpa] at hl
      rcases List.mem_cons.mp hl with rfl | hl
      · simp at hx
      · exact ih l hl x hx
    · rw [if_neg hpa] at hl
      rcases h' : as.splitOnP p with _ | ⟨h0, t⟩
      · exact absurd h' (List.splitOnP_ne_nil p as)
      · rw [h', List.modifyHead_cons] at hl
        rcases List.mem_cons.mp hl with rfl | hl
        · rcases List.mem_cons.mp hx with rfl | hx
          · exact Bool.eq_false_iff.mpr hpa
          · exact ih h0 (by rw [h']; exact List.mem_cons_self _ _) x hx
        · exact ih l (by rw [h']; exact List.mem_cons_of_mem _ hl) x hx

theorem splitOn_sep_not_mem {α : Type*} [DecidableEq α] (c : α) (xs : List α) :
    ∀ l ∈ xs.splitOn c, c ∉ l := by
  intro l hl hc
  have := splitOnP_sep_not_mem (· == c) xs l hl c hc
  simp at this

theorem splitOn_ne_nil {α : Type*} [DecidableEq α] (c : α) (xs : List α) :
    xs.splitOn c ≠ [] :=
  List.splitOnP_ne_nil _ xs

theorem two_le_length_splitOnP {α : Type*} {p : α → Bool} {xs : List α}
    (h : ∃ x ∈ xs, p x = true) : 2 ≤ (xs.splitOnP p).length := by
  induction xs with
  | nil => simp at h
  | cons a as ih =>
    rw [List.splitOnP_cons]
    by_cases hpa : p a = true
    · rw [if_pos hpa]
      have h1 : 1 ≤ (as.splitOnP p).length :=
        List.length_pos.mpr (List.splitOnP_ne_nil p as)
      simpa using h1
    · rw [if_neg hpa, List.length_modifyHead]
      apply ih
      rcases h with ⟨x, hx, hpx⟩
      rcases List.mem_cons.mp hx with rfl | hx
      · exact absurd hpx hpa
      · exact ⟨x, hx, hpx⟩

theorem two_le_length_splitOn {α : Type*} [DecidableEq α] {c : α} {xs : List α}
    (h : c ∈ xs) : 2 ≤ (xs.splitOn c).length :=
  two_le_length_splitOnP ⟨c, h, by simp⟩

theorem intercalate_cons_cons {α : Type*} (c : α) (a b : List α)
    (rest : List (List α)) :
    List.intercalate [c] (a :: b :: rest) =
      a ++ c :: List.intercalate [c] (b :: rest) := by
  simp [List.intercalate, List.intersperse_cons_cons]

theorem mem_intercalate_cons_cons {α : Type*} (c : α) (a b : List α)
    (rest : List (List α)) : c ∈ List.intercalate [c] (a :: b :: rest) := by
  rw [intercalate_cons_cons]
  simp

theorem intercalate_single {α : Type*} (c : α) (a : List α) :
    List.intercalate [c] [a] = a := by
  simp [List.intercalate]

/-- Canonicalizing a join of `'+'`-free parts: the base component is
kept first and the add-on components are stably sorted by priority. -/
theorem canonicalize_intercalate (base : List Char) (S : List (List Char))
    (hb : '+' ∉ base) (hS : ∀ x ∈ S, '+' ∉ x) :
    canonicalizeModelName (List.intercalate ['+'] (base :: S)) =
      List.intercalate ['+'] (base :: S.mergeSort omicsLe) := by
  cases S with
  | nil =>
    rw [intercalate_single, canonicalizeModelName, if_pos (Or.inr hb),
      List.mergeSort_nil, intercalate_single]
  | cons s ss =>
    have hplus : '+' ∈ List.intercalate ['+'] (base :: s :: ss) :=
      mem_intercalate_cons_cons _ _ _ _
    have hne : List.intercalate ['+'] (base :: s :: ss) ≠ [] := by
      intro h
      rw [h] at hplus
      simp at hplus
    have hsplit : (List.intercalate ['+'] (base :: s :: ss)).splitOn '+' =
        base :: s :: ss := by
      apply List.splitOn_intercalate
      · intro l hl
        rcases List.mem_cons.mp hl with rfl | hl
        · exact hb
        · exact hS l hl
      · simp
    rw [canonicalizeModelName, if_neg (by push_neg; exact ⟨hne, hplus⟩), hsplit]
    rfl

/-! ### Facts about `jsIndexOf`, `omicsLe` and stable sorting -/

theorem jsIndexOf_neg_one {l : List (List Char)} {a : List Char} (h : a ∉ l) :
    jsIndexOf l a = -1 := by
  induction l with
  | nil => rfl
  | cons x xs ih =>
    rw [jsIndexOf]
    rw [List.mem_cons, not_or] at h
    rw [if_neg h.1, ih h.2]
    rfl

theorem jsIndexOf_nonneg {l : List (List Char)} {a : List Char} (h : a ∈ l) :
    0 ≤ jsIndexOf l a := by
  induction l with
  | nil => simp at h
  | cons x xs ih =>
    rw [jsIndexOf]
    by_cases hx : a = x
    · rw [if_pos hx]
    · rw [if_neg hx]
      rcases List.mem_cons.mp h with rfl | h
      · exact absurd rfl hx
      · have h0 := ih h
        have hne : jsIndexOf xs a ≠ -1 := by omega
        simp only [if_neg hne]
        omega

theorem omicsLe_trans : ∀ a b c, omicsLe a b = true → omicsLe b c = true →
    omicsLe a c = true := by
  intro a b c hab hbc
  simp only [omicsLe, decide_eq_true_eq] at *
  omega

theorem omicsLe_total : ∀ a b, (omicsLe a b || omicsLe b a) = true := by
  intro a b
  simp only [omicsLe, Bool.or_eq_true, decide_eq_true_eq]
  omega

theorem omicsOrder_index_inj : ∀ x ∈ omicsOrder, ∀ y ∈ omicsOrder,
    jsIndexOf omicsOrder x = jsIndexOf omicsOrder y → x = y := by decide

theorem omicsOrder_plus_free : ∀ x ∈ omicsOrder, '+' ∉ x := by decide

/-- Two lists that are permutations of each other, both sorted under `omicsLe`,
and whose elements have pairwise-distinguishing priority indices, are equal:
the stable sort of any ordering of such a list of add-ons is unique. -/
theorem eq_of_perm_of_sorted_omicsLe :
    ∀ {l₁ l₂ : List (List Char)}, l₁.Perm l₂ →
      l₁.Pairwise (fun a b => omicsLe a b = true) →
      l₂.Pairwise (fun a b => omicsLe a b = true) →
      (∀ a ∈ l₁, ∀ b ∈ l₁,
        jsIndexOf omicsOrder a = jsIndexOf omicsOrder b → a = b) →
      l₁ = l₂ := by
  intro l₁
  induction l₁ with
  | nil => intro l₂ hp _ _ _; rw [hp.nil_eq]
  | cons a t₁ ih =>
    intro l₂ hp hs₁ hs₂ hinj
    rcases l₂ with _ | ⟨b, t₂⟩
    · exact absurd hp.symm.nil_eq (by simp)
    have hab : a = b := by
      by_cases h : a = b
      · exact h
      · have hb₁ : b ∈ a :: t₁ := hp.symm.subset (List.mem_cons_self _ _)
        have ha₂ : a ∈ b :: t₂ := hp.subset (List.mem_cons_self _ _)
        have hbt₁ : b ∈ t₁ := by
          rcases List.mem_cons.mp hb₁ with h' | h'
          · exact absurd h'.symm h
          · exact h'
        have hat₂ : a ∈ t₂ := by
          rcases List.mem_cons.mp ha₂ with h' | h'
          · exact absurd h' h
          · exact h'
        have h1 : omicsLe a b = true := (List.pairwise_cons.mp hs₁).1 b hbt₁
        have h2 : omicsLe b a = true := (List.pairwise_cons.mp hs₂).1 a hat₂
        simp only [omicsLe, decide_eq_true_eq] at h1 h2
        exact hinj a (List.mem_cons_self _ _) b (List.mem_cons_of_mem _ hbt₁)
          (le_antisymm h1 h2)
    subst hab
    have ht : t₁.Perm t₂ := (List.perm_cons a).mp hp
    have := ih ht (List.pairwise_cons.mp hs₁).2 (List.pairwise_cons.mp hs₂).2
      (fun x hx y hy => hinj x (List.mem_cons_of_mem _ hx) y
        (List.mem_cons_of_mem _ hy))
    rw [this]

/-- Splitting on `'+'` recovers the canonicalized parts of any name that
contains `'+'`; proved as a stepping stone for the claims below. -/
theorem canonicalizeModelName_eq_of_plus {x : List Char} (hplus : '+' ∈ x) :
    ∃ b rest, x.splitOn '+' = b :: rest ∧
      canonicalizeModelName x =
        List.intercalate ['+'] (b :: rest.mergeSort omicsLe) := by
  have hne : x ≠ [] := by rintro rfl; simp at hplus
  rcases hp : x.splitOn '+' with _ | ⟨b, rest⟩
  · exact absurd hp (splitOn_ne_nil '+' x)
  refine ⟨b, rest, rfl, ?_⟩
  rw [canonicalizeModelName, if_neg (by push_neg; exact ⟨hne, hplus⟩), hp]
  rfl

/-- C7: `canonicalizeModelName` is idempotent — in fact for every input string,
not only valid composite names. -/
theorem claim_C7_canonicalize_idempotent (x : List Char) :
    canonicalizeModelName (canonicalizeModelName x) = canonicalizeModelName x := by
  by_cases hx : x = [] ∨ '+' ∉ x
  · have h1 : canonicalizeModelName x = x := by
      rw [canonicalizeModelName, if_pos hx]
    rw [h1, h1]
  · push_neg at hx
    obtain ⟨hne, hplus⟩ := hx
    obtain ⟨b, rest, hp, hcx⟩ := canonicalizeModelName_eq_of_plus hplus
    have hxparts : ∀ l ∈ x.splitOn '+', '+' ∉ l := splitOn_sep_not_mem '+' x
    rw [hp] at hxparts
    have hbfree : '+' ∉ b := hxparts b (List.mem_cons_self _ _)
    have hmsparts : ∀ l ∈ rest.mergeSort omicsLe, '+' ∉ l := by
      intro l hl
      exact hxparts l (List.mem_cons_of_mem _ (List.mem_mergeSort.mp hl))
    rw [hcx, canonicalize_intercalate b _ hbfree hmsparts,
      List.mergeSort_of_sorted (List.sorted_mergeSort omicsLe_trans omicsLe_total rest)]

/-- C6: canonicalization is order-invariant: for a `'+'`-free base name and any
two orderings of the same set of add-on components drawn from the priority
list, `canonicalizeModelName` maps both composite names to the same string,
namely the base followed by the add-ons reordered into the fixed priority
order (PRS, MetScore, ProScore). -/
theorem claim_C6_canonicalize_order_invariant
    (base : List Char) (l₁ l₂ : List (List Char))
    (hbase : '+' ∉ base)
    (hsub : ∀ x ∈ l₁, x ∈ omicsOrder) (_hnd : l₁.Nodup)
    (hperm : l₁.Perm l₂) :
    canonicalizeModelName (List.intercalate ['+'] (base :: l₁)) =
      canonicalizeModelName (List.intercalate ['+'] (base :: l₂)) ∧
    canonicalizeModelName (List.intercalate ['+'] (base :: l₁)) =
      List.intercalate ['+'] (base :: l₁.mergeSort omicsLe) ∧
    (l₁.mergeSort omicsLe).Pairwise (fun a b => omicsLe a b = true) := by
  have hS₁ : ∀ x ∈ l₁, '+' ∉ x := fun x hx => omicsOrder_plus_free x (hsub x hx)
  have hS₂ : ∀ x ∈ l₂, '+' ∉ x := fun x hx => hS₁ x (hperm.symm.subset hx)
  have hsort : l₁.mergeSort omicsLe = l₂.mergeSort omicsLe := by
    apply eq_of_perm_of_sorted_omicsLe
    · exact (List.mergeSort_perm l₁ _).trans
        (hperm.trans (List.mergeSort_perm l₂ _).symm)
    · exact List.sorted_mergeSort omicsLe_trans omicsLe_total l₁
    · exact List.sorted_mergeSort omicsLe_trans omicsLe_total l₂
    · intro a ha b hb
      exact omicsOrder_index_inj a (hsub a (List.mem_mergeSort.mp ha)) b
        (hsub b (List.mem_mergeSort.mp hb))
  refine ⟨?_, canonicalize_intercalate base l₁ hbase hS₁,
    List.sorted_mergeSort omicsLe_trans omicsLe_total l₁⟩
  rw [canonicalize_intercalate base l₁ hbase hS₁,
    canonicalize_intercalate base l₂ hbase hS₂, hsort]

/-- Witness for C6: the claim's concrete instance,
`canonicalize("Clin+ProScore+PRS") == canonicalize("Clin+PRS+ProScore")`. -/
theorem claim_C6_witness :
    canonicalizeModelName "Clin+ProScore+PRS".data =
      canonicalizeModelName "Clin+PRS+ProScore".data := by
  have h1 : List.intercalate ['+']
      ("Clin".data :: ["ProScore".data, "PRS".data]) =
      "Clin+ProScore+PRS".data := by decide
  have h2 : List.intercalate ['+']
      ("Clin".data :: ["PRS".data, "ProScore".data]) =
      "Clin+PRS+ProScore".data := by decide
  rw [← h1, ← h2]
  exact (claim_C6_canonicalize_order_invariant "Clin".data
    ["ProScore".data, "PRS".data] ["PRS".data, "ProScore".data]
    (by decide) (by decide) (by decide) (by decide)).1

/-- A list sorted under `omicsLe` splits into the components outside the
priority list (comparator key `-1`) followed by the recognized ones. -/
theorem sorted_omicsLe_decomp :
    ∀ {l : List (List Char)}, l.Pairwise (fun a b => omicsLe a b = true) →
      ∃ u r, l = u ++ r ∧ (∀ x ∈ u, x ∉ omicsOrder) ∧
        (∀ x ∈ r, x ∈ omicsOrder) := by
  intro l
  induction l with
  | nil => exact fun _ => ⟨[], [], rfl, by simp, by simp⟩
  | cons a t ih =>
    intro hs
    obtain ⟨hhead, htail⟩ := List.pairwise_cons.mp hs
    by_cases ha : a ∈ omicsOrder
    · refine ⟨[], a :: t, rfl, by simp, ?_⟩
      intro x hx
      rcases List.mem_cons.mp hx with rfl | hx
      · exact ha
      · by_contra hxo
        have h1 := jsIndexOf_nonneg ha
        have h2 := jsIndexOf_neg_one hxo
        have h3 := hhead x hx
        simp only [omicsLe, decide_eq_true_eq] at h3
        omega
    · obtain ⟨u, r, hur, hu, hr⟩ := ih htail
      refine ⟨a :: u, r, by rw [hur]; rfl, ?_, hr⟩
      intro x hx
      rcases List.mem_cons.mp hx with rfl | hx
      · exact ha
      · exact hu x hx

/-- C10 (implicit): for every input string, `canonicalizeModelName` returns a
string whose `'+'`-separated components are a permutation of the input's
components with the base component kept first; a name containing no `'+'` is
returned verbatim; components outside the priority list are never dropped and
are sorted before the recognized add-ons. -/
theorem claim_C10_canonicalize_components (name : List Char) :
    ('+' ∉ name → canonicalizeModelName name = name) ∧
    ('+' ∈ name →
      ∃ b rest rest', name.splitOn '+' = b :: rest ∧
        (canonicalizeModelName name).splitOn '+' = b :: rest' ∧
        rest'.Perm rest ∧
        ∃ u r, rest' = u ++ r ∧ (∀ x ∈ u, x ∉ omicsOrder) ∧
          (∀ x ∈ r, x ∈ omicsOrder)) := by
  constructor
  · intro h
    rw [canonicalizeModelName, if_pos (Or.inr h)]
  · intro hplus
    obtain ⟨b, rest, hp, hcx⟩ := canonicalizeModelName_eq_of_plus hplus
    refine ⟨b, rest, rest.mergeSort omicsLe, hp, ?_, List.mergeSort_perm _ _, ?_⟩
    · rw [hcx]
      apply List.splitOn_intercalate
      · intro l hl
        have hxparts := splitOn_sep_not_mem '+' name
        rw [hp] at hxparts
        rcases List.mem_cons.mp hl with rfl | hl
        · exact hxparts l (List.mem_cons_self _ _)
        · exact hxparts l (List.mem_cons_of_mem _ (List.mem_mergeSort.mp hl))
      · simp
    · exact sorted_omicsLe_decomp
        (List.sorted_mergeSort omicsLe_trans omicsLe_total rest)

/-- Witness for C10 at the concrete composite name `"Clin+Foo+PRS"`, whose
middle add-on is outside the priority list. -/
theorem claim_C10_witness :
    '+' ∈ "Clin+Foo+PRS".data ∧
    (∃ b rest rest', ("Clin+Foo+PRS".data).splitOn '+' = b :: rest ∧
      (canonicalizeModelName "Clin+Foo+PRS".data).splitOn '+' = b :: rest' ∧
      rest'.Perm rest ∧
      ∃ u r, rest' = u ++ r ∧ (∀ x ∈ u, x ∉ omicsOrder) ∧
        (∀ x ∈ r, x ∈ omicsOrder)) :=
  ⟨by decide, (claim_C10_canonicalize_components "Clin+Foo+PRS".data).2 (by decide)⟩

/-! ### Facts about `bitSubset`: the bitmask loop enumerates exactly the
sublists of `omicsArray` -/

theorem bitSubset_sublist (i : Nat) (l : List (List Char)) :
    (bitSubset i l).Sublist l := by
  induction l generalizing i with
  | nil => simp [bitSubset]
  | cons a rest ih =>
    rw [bitSubset]
    by_cases h : i % 2 = 1
    · rw [if_pos h, List.singleton_append]
      exact (ih (i / 2)).cons₂ a
    · rw [if_neg h, List.nil_append]
      exact (ih (i / 2)).cons a

theorem bitSubset_zero (l : List (List Char)) : bitSubset 0 l = [] := by
  induction l with
  | nil => rfl
  | cons a rest ih => rw [bitSubset]; simpa using ih

theorem bitSubset_surj {l S : List (List Char)} (h : S.Sublist l) :
    ∃ i, i < 2 ^ l.length ∧ bitSubset i l = S := by
  induction l generalizing S with
  | nil =>
    refine ⟨0, by simp, ?_⟩
    rw [List.sublist_nil.mp h]
    rfl
  | cons a rest ih =>
    cases h with
    | cons _ h' =>
      obtain ⟨i, hi, hbs⟩ := ih h'
      refine ⟨2 * i, ?_, ?_⟩
      · rw [List.length_cons, pow_succ]; omega
      · rw [bitSubset, if_neg (by omega), List.nil_append,
          Nat.mul_div_cancel_left i (by norm_num), hbs]
    | cons₂ _ h' =>
      obtain ⟨i, hi, hbs⟩ := ih h'
      refine ⟨2 * i + 1, ?_, ?_⟩
      · rw [List.length_cons, pow_succ]; omega
      · have h2 : (2 * i + 1) / 2 = i := by omega
        rw [bitSubset, if_pos (by omega), List.singleton_append, h2, hbs]

theorem bitSubset_inj :
    ∀ {l : List (List Char)}, l.Nodup → ∀ i j, i < 2 ^ l.length →
      j < 2 ^ l.length → bitSubset i l = bitSubset j l → i = j := by
  intro l
  induction l with
  | nil =>
    intro _ i j hi hj _
    simp only [List.length_nil, pow_zero, Nat.lt_one_iff] at hi hj
    omega
  | cons a rest ih =>
    intro hnd i j hi hj heq
    obtain ⟨hamem, hndrest⟩ := List.nodup_cons.mp hnd
    rw [bitSubset, bitSubset] at heq
    rw [List.length_cons, pow_succ] at hi hj
    have hi2 : i / 2 < 2 ^ rest.length := by omega
    have hj2 : j / 2 < 2 ^ rest.length := by omega
    by_cases hib : i % 2 = 1 <;> by_cases hjb : j % 2 = 1
    · rw [if_pos hib, if_pos hjb, List.singleton_append,
        List.singleton_append] at heq
      have := ih hndrest (i / 2) (j / 2) hi2 hj2 (List.cons.injEq .. ▸ heq).2
      omega
    · rw [if_pos hib, if_neg hjb, List.singleton_append, List.nil_append] at heq
      exact absurd ((bitSubset_sublist (j / 2) rest).subset
        (heq ▸ List.mem_cons_self a _)) hamem
    · rw [if_neg hib, if_pos hjb, List.nil_append, List.singleton_append] at heq
      exact absurd ((bitSubset_sublist (i / 2) rest).subset
        (heq.symm ▸ List.mem_cons_self a _)) hamem
    · rw [if_neg hib, if_neg hjb, List.nil_append, List.nil_append] at heq
      have := ih hndrest (i / 2) (j / 2) hi2 hj2 heq
      omega

/-- Two sublists of a duplicate-free list that are permutations of each other
are equal: a subset of the add-ons determines its enumeration order. -/
theorem sublist_eq_of_perm_of_nodup :
    ∀ {l S₁ S₂ : List (List Char)}, l.Nodup → S₁.Sublist l → S₂.Sublist l →
      S₁.Perm S₂ → S₁ = S₂ := by
  intro l
  induction l with
  | nil =>
    intro S₁ S₂ _ h₁ h₂ _
    rw [List.sublist_nil.mp h₁, List.sublist_nil.mp h₂]
  | cons a rest ih =>
    intro S₁ S₂ hnd h₁ h₂ hp
    obtain ⟨hamem, hndrest⟩ := List.nodup_cons.mp hnd
    cases h₁ with
    | cons _ h₁' =>
      cases h₂ with
      | cons _ h₂' => exact ih hndrest h₁' h₂' hp
      | cons₂ _ h₂' =>
        exact absurd (h₁'.subset (hp.symm.subset (List.mem_cons_self a _)))
          hamem
    | cons₂ _ h₁' =>
      cases h₂ with
      | cons _ h₂' =>
        exact absurd (h₂'.subset (hp.subset (List.mem_cons_self a _))) hamem
      | cons₂ _ h₂' =>
        rw [ih hndrest h₁' h₂' ((List.perm_cons a).mp hp)]

/-- C5: for a nonempty `'+'`-free base name and distinct add-ons drawn from
the priority set, `generateModelCombinations` yields exactly `2^n` distinct
canonical model names, one of which is the base alone, covering every subset
of the add-ons. -/
theorem claim_C5_generate_combinations
    (base : List Char) (omicsArray : List (List Char))
    (hbase : base ≠ []) (hbfree : '+' ∉ base)
    (hsub : ∀ x ∈ omicsArray, x ∈ omicsOrder) (hnd : omicsArray.Nodup) :
    (generateModelCombinations base omicsArray).length =
        2 ^ omicsArray.length ∧
    (generateModelCombinations base omicsArray).Nodup ∧
    base ∈ generateModelCombinations base omicsArray ∧
    ∀ S, S.Sublist omicsArray →
      canonicalizeModelName (List.intercalate ['+'] (base :: S)) ∈
        generateModelCombinations base omicsArray := by
  have hfree : ∀ i, ∀ x ∈ bitSubset i omicsArray, '+' ∉ x := fun i x hx =>
    omicsOrder_plus_free x (hsub x ((bitSubset_sublist i omicsArray).subset hx))
  have hcanon : ∀ i, canonicalizeModelName
      (List.intercalate ['+'] (base :: bitSubset i omicsArray)) =
      List.intercalate ['+']
        (base :: (bitSubset i omicsArray).mergeSort omicsLe) := fun i =>
    canonicalize_intercalate base _ hbfree (hfree i)
  have hgen : generateModelCombinations base omicsArray =
      (List.range (2 ^ omicsArray.length)).map fun i =>
        canonicalizeModelName
          (List.intercalate ['+'] (base :: bitSubset i omicsArray)) := by
    rw [generateModelCombinations, if_neg hbase]
  refine ⟨?_, ?_, ?_, ?_⟩
  · rw [hgen, List.length_map, List.length_range]
  · rw [hgen]
    apply List.Nodup.map_on ?_ (List.nodup_range _)
    intro i hi j hj hij
    rw [List.mem_range] at hi hj
    rw [hcanon i, hcanon j] at hij
    have hparts : ∀ i, ∀ l ∈
        base :: (bitSubset i omicsArray).mergeSort omicsLe, '+' ∉ l := by
      intro i l hl
      rcases List.mem_cons.mp hl with rfl | hl
      · exact hbfree
      · exact hfree i l (List.mem_mergeSort.mp hl)
    have hsplit := congrArg (List.splitOn '+') hij
    rw [List.splitOn_intercalate _ '+' (hparts i) (by simp),
      List.splitOn_intercalate _ '+' (hparts j) (by simp)] at hsplit
    have hms : (bitSubset i omicsArray).mergeSort omicsLe =
        (bitSubset j omicsArray).mergeSort omicsLe :=
      (List.cons.injEq .. ▸ hsplit).2
    have hperm : (bitSubset i omicsArray).Perm (bitSubset j omicsArray) :=
      ((List.mergeSort_perm _ omicsLe).symm.trans (hms ▸
        List.mergeSort_perm (bitSubset j omicsArray) omicsLe))
    exact bitSubset_inj hnd i j hi hj
      (sublist_eq_of_perm_of_nodup hnd (bitSubset_sublist i omicsArray)
        (bitSubset_sublist j omicsArray) hperm)
  · rw [hgen]
    apply List.mem_map.mpr
    refine ⟨0, List.mem_range.mpr (Nat.pos_pow_of_pos _ (by norm_num)), ?_⟩
    rw [bitSubset_zero, intercalate_single, canonicalizeModelName,
      if_pos (Or.inr hbfree)]
  · intro S hS
    obtain ⟨i, hi, hbs⟩ := bitSubset_surj hS
    rw [hgen]
    exact List.mem_map.mpr ⟨i, List.mem_range.mpr hi, by rw [hbs]⟩

/-- Witness for C5: for the three real add-ons (PRS, MetScore, ProScore) and
base `"Clin"`, the enumeration has exactly `2^3 = 8` distinct names, contains
the base alone, and covers every subset. -/
theorem claim_C5_witness :
    (generateModelCombinations "Clin".data
        ["PRS".data, "MetScore".data, "ProScore".data]).length = 2 ^ 3 ∧
    (generateModelCombinations "Clin".data
        ["PRS".data, "MetScore".data, "ProScore".data]).Nodup ∧
    "Clin".data ∈ generateModelCombinations "Clin".data
        ["PRS".data, "MetScore".data, "ProScore".data] ∧
    ∀ S, S.Sublist ["PRS".data, "MetScore".data, "ProScore".data] →
      canonicalizeModelName (List.intercalate ['+'] ("Clin".data :: S)) ∈
        generateModelCombinations "Clin".data
          ["PRS".data, "MetScore".data, "ProScore".data] :=
  claim_C5_generate_combinations "Clin".data
    ["PRS".data, "MetScore".data, "ProScore".data]
    (by decide) (by decide) (by decide) (by decide)

/-! ## The risk-calculation pipeline (scripts.js 263-395)

JS objects used as maps are association lists over `String` keys.  `lookupKV`
is property read (`undefined` becomes `none`), `setKV` is property write
(an existing key keeps its position, as in JS), `removeKV` is `delete`.
Finite JS numbers are rationals; a value whose `parseFloat` is `NaN` is
modelled as `none` at the parse boundary.  The three `Math` built-ins whose
result on finite inputs is not exactly representable — `sqrt`, `exp`, `pow` —
enter as parameters (`S`, `E`, `P`); their exactly specified special values
(ECMA-262) are embedded directly. -/

def lookupKV {α : Type*} : List (String × α) → String → Option α
  | [], _ => none
  | (k', v) :: rest, k => if k' = k then some v else lookupKV rest k

def setKV {α : Type*} : List (String × α) → String → α → List (String × α)
  | [], k, v => [(k, v)]
  | (k', v') :: rest, k, v =>
    if k' = k then (k', v) :: rest else (k', v') :: setKV rest k v

def removeKV {α : Type*} : List (String × α) → String → List (String × α)
  | [], _ => []
  | (k', v) :: rest, k => if k' = k then rest else (k', v) :: removeKV rest k

/-- Rank keys of the percentile lookup are the numeric slider values
(JS coerces them to property-name strings; equal numbers coerce to equal
keys, so we index by the number itself). -/
def lookupRank : List (ℚ × ℚ) → ℚ → Option ℚ
  | [], _ => none
  | (r', v) :: rest, r => if r' = r then some v else lookupRank rest r

/-- The `friendlyVariableNames` table (scripts.js 11-29). -/
def friendlyVariableNames : List (String × String) :=
  [("age", "Age (years)"), ("sbp", "Systolic Blood Pressure"),
   ("dbp", "Diastolic Blood Pressure"), ("height", "Height"),
   ("weight", "Weight"), ("waist_cir", "Waist Circumference"),
   ("waist_hip_ratio", "Waist-Hip Ratio"), ("bmi", "Body Mass Index"),
   ("baso", "Basophill Count"), ("eos", "Eosinophill Count"),
   ("hct", "Haematocrit"), ("hb", "Haemoglobin"),
   ("lc", "Lymphocyte Count"), ("mc", "Monocyte Count"),
   ("nc", "Neutrophill Count"), ("plt", "Platelet Count"),
   ("wbc", "Leukocyte Count")]

/-- The percentile slider variables (scripts.js line 303). -/
def percentileVars : List String := ["townsend", "prs", "metscore", "proscore"]

/-- The continuous biomarkers standardized by the PANEL scaler
(scripts.js 320-323). -/
def panelVars : List String :=
  ["age", "sbp", "dbp", "height", "weight", "waist_cir", "waist_hip_ratio",
   "bmi", "baso", "eos", "hct", "hb", "lc", "mc", "nc", "plt", "wbc"]

/-- The processed percentile lookup structure built by
`preparePercentilesData`: disease code → score name → rank → absolute score. -/
abbrev PercentileMap := List (String × List (String × List (ℚ × ℚ)))

/-- The reference tables consumed by `calculateRisk`, after CSV parsing.
Coefficient and baseline-survival rows carry the `parseFloat` of the selected
disease's column: `none` models a non-numeric cell (`NaN`). -/
structure Tables where
  percentileMap : PercentileMap
  panelScalerParams : List (String × ℚ × ℚ)
  coefficients : List (String × Option ℚ)
  baselineSurvivals : List (Option ℚ × Option ℚ)

/-- The parse loop of `calculateRisk` (scripts.js 267-279) over the
parse-checked form fields (continuous biomarkers and sliders, in form order;
the `male_1.0`/`ethnicity`/`*_1.0` keys are copied unchanged and appear in
`flags` below).  The first field whose `parseFloat` is `NaN` (`none`) aborts,
identified by its key. -/
def parseForm : List (String × Option ℚ) → Except String (List (String × ℚ))
  | [] => .ok []
  | (k, none) :: _ => .error k
  | (k, some v) :: rest => (parseForm rest).map ((k, v) :: ·)

/-- The ethnicity one-hot expansion (scripts.js 290-299). -/
def expandEthnicity (parsed : List (String × ℚ)) : List (String × ℚ) :=
  let e := lookupKV parsed "ethnicity"
  let p := setKV (setKV (setKV parsed "ethnicity_1.0" 0) "ethnicity_2.0" 0)
    "ethnicity_3.0" 0
  let p :=
    if e = some 1 then setKV p "ethnicity_1.0" 1
    else if e = some 2 then setKV p "ethnicity_2.0" 1
    else if e = some 3 then setKV p "ethnicity_3.0" 1
    else p
  removeKV p "ethnicity"

/-- One percentile resolution, `percentileMap[disease][scoreVar][rank]`
(scripts.js line 307): an absent disease or score key throws a `TypeError`,
an absent rank key yields `undefined` and an explicit throw — all three are
`none` here, caught by the per-variable handler. -/
def resolvePercentile (pm : PercentileMap) (disease scoreVar : String)
    (rank : ℚ) : Option ℚ :=
  match lookupKV pm disease with
  | none => none
  | some byScore =>
    match lookupKV byScore scoreVar with
    | none => none
    | some byRank => lookupRank byRank rank

/-- The percentile loop (scripts.js 303-317): each slider value is replaced by
its resolved absolute score; the first failing variable aborts, identified by
its name. -/
def resolveLoop (pm : PercentileMap) (disease : String) :
    List String → List (String × ℚ) → Except String (List (String × ℚ))
  | [], parsed => .ok parsed
  | v :: rest, parsed =>
    match lookupKV parsed v with
    | none => .error v
    | some r =>
      match resolvePercentile pm disease v r with
      | none => .error v
      | some score => resolveLoop pm disease rest (setKV parsed v score)

/-- The two scaling failures of scripts.js 325-346. -/
inductive ScaleError where
  | degenerate (v : String)
  | missing (v : String)
deriving DecidableEq

/-- The scaling loop (scripts.js 325-346).  `S` models `Math.sqrt`; the JS
guard is `Math.sqrt(variance) === 0`, embedded as `S variance = 0`.  The first
variable with missing parameters or a zero standard deviation aborts (the JS
`scalingError` flag skips the remaining iterations). -/
def scaleLoop (S : ℚ → ℚ) (params : List (String × ℚ × ℚ))
    (parsed : List (String × ℚ)) :
    List String → Except ScaleError (List (String × ℚ))
  | [] => .ok []
  | v :: rest =>
    match lookupKV params v with
    | some (mean, variance) =>
      if S variance = 0 then .error (.degenerate v)
      else (scaleLoop S params parsed rest).map
        ((v, ((lookupKV parsed v).getD 0 - mean) / S variance) :: ·)
    | none => .error (.missing v)

/-- The linear-predictor accumulation (scripts.js 353-369): rows whose
coefficient parsed to `NaN` (`none`) are skipped; otherwise the value is drawn
from `scaledData` first, then `parsedData`, else the row is skipped. -/
def linearPredictor (coeffs : List (String × Option ℚ))
    (scaled parsed : List (String × ℚ)) : ℚ :=
  coeffs.foldl
    (fun acc c =>
      match c.2 with
      | none => acc
      | some cv =>
        match lookupKV scaled c.1 with
        | some x => acc + x * cv
        | none =>
          match lookupKV parsed c.1 with
          | some x => acc + x * cv
          | none => acc)
    0

/-- The per-disease survival curve after `parseFloat` and the `isNaN` filter
(scripts.js 373-378). -/
def survivalPoints (rows : List (Option ℚ × Option ℚ)) : List (ℚ × ℚ) :=
  rows.filterMap fun r =>
    match r with
    | (some t, some s) => some (t, s)
    | _ => none

/-- The points at or before the 10-year horizon (scripts.js line 379). -/
def survivalCandidates (rows : List (Option ℚ × Option ℚ)) : List (ℚ × ℚ) :=
  (survivalPoints rows).filter fun p => p.1 ≤ 10

/-- The `candidates.reduce` of scripts.js 381-383: the point with the greatest
time, keeping the earlier point on ties (`current.time > latest.time`). -/
def lastStep : List (ℚ × ℚ) → Option (ℚ × ℚ)
  | [] => none
  | c :: cs =>
    some (cs.foldl (fun latest current =>
      if latest.1 < current.1 then current else latest) c)

/-- Baseline survival at the 10-year horizon (scripts.js 371-388), paired with
whether the no-data warning was logged (`console.warn`, line 386). -/
def baselineSurvivalAt10 (rows : List (Option ℚ × Option ℚ)) : ℚ × Bool :=
  match lastStep (survivalCandidates rows) with
  | some p => (p.2, false)
  | none => (1, true)

/-! ### JS numbers with special values, and the evaluator tail
(scripts.js 390-394) -/

/-- A JS number: a finite value (embedded as a rational), an infinity, or
`NaN`.  `-0` is identified with `0`. -/
inductive JSNum where
  | fin (q : ℚ)
  | inf
  | ninf
  | nan
deriving DecidableEq

def JSNum.isFinite : JSNum → Bool
  | .fin _ => true
  | _ => false

/-- ECMA-262 `Math.exp`: `exp(NaN) = NaN`, `exp(+∞) = +∞`, `exp(-∞) = +0`,
`exp(±0) = 1`; other finite inputs are implementation-approximated and
deferred to the parameter `E`. -/
def jsExp (E : ℚ → JSNum) : JSNum → JSNum
  | .nan => .nan
  | .inf => .inf
  | .ninf => .fin 0
  | .fin q => if q = 0 then .fin 1 else E q

/-- Whether a rational is an odd integer (the sign rule of `Math.pow` for a
negative-infinity base). -/
def oddInt (q : ℚ) : Bool := q.den = 1 && q.num % 2 ≠ 0

/-- ECMA-262 `Math.pow` on its exactly specified cases: `NaN` exponent gives
`NaN`; a zero exponent gives `1` (even for a `NaN` base); infinite bases,
zero bases and infinite exponents follow the limit rules.  A finite nonzero
base with a finite nonzero exponent is implementation-approximated and
deferred to the parameter `P` (which may overflow to an infinity). -/
def jsPow (P : ℚ → ℚ → JSNum) : JSNum → JSNum → JSNum
  | _, .nan => .nan
  | b, .fin e =>
    if e = 0 then .fin 1
    else
      match b with
      | .nan => .nan
      | .inf => if 0 < e then .inf else .fin 0
      | .ninf =>
        if 0 < e then (if oddInt e then .ninf else .inf) else .fin 0
      | .fin q =>
        if q = 0 then (if 0 < e then .fin 0 else .inf) else P q e
  | b, .inf =>
    match b with
    | .nan => .nan
    | .inf => .inf
    | .ninf => .inf
    | .fin q => if |q| = 1 then .nan else if |q| < 1 then .fin 0 else .inf
  | b, .ninf =>
    match b with
    | .nan => .nan
    | .inf => .fin 0
    | .ninf => .fin 0
    | .fin q => if |q| = 1 then .nan else if |q| < 1 then .inf else .fin 0

/-- JS subtraction on special values (finite-arithmetic overflow is not
modelled). -/
def jsSub : JSNum → JSNum → JSNum
  | .nan, _ => .nan
  | _, .nan => .nan
  | .fin a, .fin b => .fin (a - b)
  | .fin _, .inf => .ninf
  | .fin _, .ninf => .inf
  | .inf, .fin _ => .inf
  | .inf, .inf => .nan
  | .inf, .ninf => .inf
  | .ninf, .fin _ => .ninf
  | .ninf, .inf => .ninf
  | .ninf, .ninf => .nan

/-- JS multiplication by a finite constant (used only for `* 100`). -/
def jsMul (x : JSNum) (c : ℚ) : JSNum :=
  match x with
  | .nan => .nan
  | .fin q => .fin (q * c)
  | .inf => if 0 < c then .inf else if c < 0 then .ninf else .nan
  | .ninf => if 0 < c then .ninf else if c < 0 then .inf else .nan

/-- Rendering of `Number.prototype.toFixed(1)` on a finite value: extract the
sign, pick
the integer `n` closest to `10·|x|` (ties toward the larger `n`), and render
`n/10` with one decimal digit. -/
def ratToFixed1 (q : ℚ) : String :=
  let sign := if q < 0 then "-" else ""
  let x := if q < 0 then -q else q
  let n : Nat := (⌊x * 10 + 1 / 2⌋).toNat
  sign ++ toString (n / 10) ++ "." ++ toString (n % 10)

/-- Rendering of `toFixed(1)` on any JS number: `NaN` and the infinities
render as their
JS string forms. -/
def jsToFixed1 : JSNum → String
  | .nan => "NaN"
  | .inf => "Infinity"
  | .ninf => "-Infinity"
  | .fin q => ratToFixed1 q

/-- The evaluator tail (scripts.js 390-392):
`1 - Math.pow(baselineSurvivalProb, Math.exp(linearPredictor))`, applied
unconditionally — no finiteness check, catch or clamp at any step. -/
def riskFromLP (E : ℚ → JSNum) (P : ℚ → ℚ → JSNum)
    (lp baselineSurvivalProb : JSNum) : JSNum :=
  jsSub (.fin 1) (jsPow P baselineSurvivalProb (jsExp E lp))

/-- The displayed risk string `(predictedRisk * 100).toFixed(1) + '%'`
(scripts.js line 394). -/
def displayRisk (r : JSNum) : String := jsToFixed1 (jsMul r 100) ++ "%"

/-! ### The pipeline -/

/-- The error messages alerted by `calculateRisk` (quote characters of the
original message text are omitted). -/
def parseErrorMsg (k : String) : String :=
  "Please enter a valid number for: " ++ ((lookupKV friendlyVariableNames k).getD k)

def percentileErrorMsg (v : String) : String :=
  "Could not find percentile mapping for " ++ v ++
    " for the selected disease. Please check the percentiles.csv file."

def scaleErrorMsg : ScaleError → String
  | .degenerate v =>
    "Error: Scaling parameter for " ++ v ++
      " is invalid (Standard Deviation is 0)."
  | .missing v =>
    "Error: Scaling parameters for " ++ v ++
      " are missing. The calculation cannot proceed."

/-- The externally visible outcome of one `calculateRisk` run: the final
text content of the `#disease-risk` element and the alert raised, if any. -/
structure CalcResult where
  diseaseRisk : String
  alertMsg : Option String
deriving DecidableEq

/-- Embedding of `calculateRisk` (scripts.js 263-395) as a function of the
reference tables, the selected disease code, and the collected form data
(`checked` = the parse-checked continuous/slider fields in form order,
`flags` = the numeric `male_1.0`/`ethnicity`/`*_1.0` fields that the parse
loop copies unchanged; `collectFormData` inserts them in this order).
`initRisk` is the text the `#disease-risk` element shows when the run starts.
The writes to `#disease-risk` happen in source order: nothing before the
parse loop finishes, `'Calculating...'` before the percentile loop, `'--'`
on a scaling error, and the formatted risk on success. -/
def calculateRisk (S : ℚ → ℚ) (E : ℚ → JSNum) (P : ℚ → ℚ → JSNum)
    (tbl : Tables) (disease : String) (checked : List (String × Option ℚ))
    (flags : List (String × ℚ)) (initRisk : String) : CalcResult :=
  match parseForm checked with
  | .error k => { diseaseRisk := initRisk, alertMsg := some (parseErrorMsg k) }
  | .ok parsedChecked =>
    let parsed := expandEthnicity (parsedChecked ++ flags)
    match resolveLoop tbl.percentileMap disease percentileVars parsed with
    | .error v =>
      { diseaseRisk := "Calculating...",
        alertMsg := some (percentileErrorMsg v) }
    | .ok parsed =>
      match scaleLoop S tbl.panelScalerParams parsed panelVars with
      | .error e =>
        { diseaseRisk := "--", alertMsg := some (scaleErrorMsg e) }
      | .ok scaled =>
        let lp := linearPredictor tbl.coefficients scaled parsed
        let b := (baselineSurvivalAt10 tbl.baselineSurvivals).1
        { diseaseRisk := displayRisk (riskFromLP E P (.fin lp) (.fin b)),
          alertMsg := none }

/-- C3: a coefficient row whose disease-specific entry is non-numeric (its
`parseFloat` is `NaN`, i.e. `none`) contributes exactly 0 to the linear
predictor by being omitted from the sum: deleting the row leaves the linear
predictor unchanged, for every position of the row and every data set. -/
theorem claim_C3_nonnumeric_coefficient_skipped
    (pre post : List (String × Option ℚ)) (v : String)
    (scaled parsed : List (String × ℚ)) :
    linearPredictor (pre ++ (v, none) :: post) scaled parsed =
      linearPredictor (pre ++ post) scaled parsed := by
  simp [linearPredictor, List.foldl_append]

/-- The `reduce` callback of scripts.js 381-383 selects a member of the
candidate list whose time bounds every candidate's time. -/
theorem foldl_lastStep_spec :
    ∀ (cs : List (ℚ × ℚ)) (c : ℚ × ℚ),
      (cs.foldl (fun latest current =>
          if latest.1 < current.1 then current else latest) c) ∈ c :: cs ∧
      ∀ q ∈ c :: cs, q.1 ≤ (cs.foldl (fun latest current =>
          if latest.1 < current.1 then current else latest) c).1 := by
  intro cs
  induction cs with
  | nil =>
    intro c
    refine ⟨List.mem_cons_self _ _, ?_⟩
    intro q hq
    rcases List.mem_cons.mp hq with rfl | hq
    · exact le_refl _
    · simp at hq
  | cons d ds ih =>
    intro c
    rw [List.foldl_cons]
    obtain ⟨hmem, hbound⟩ := ih (if c.1 < d.1 then d else c)
    have hstep : (if c.1 < d.1 then d else c) ∈ [c, d] := by
      by_cases hcd : c.1 < d.1 <;> simp [hcd]
    constructor
    · rcases List.mem_cons.mp hmem with h | h
      · rw [h]
        rcases List.mem_cons.mp hstep with h' | h'
        · rw [h']; exact List.mem_cons_self _ _
        · simp only [List.mem_singleton] at h'
          rw [h']
          exact List.mem_cons_of_mem _ (List.mem_cons_self _ _)
      · exact List.mem_cons_of_mem _ (List.mem_cons_of_mem _ h)
    · intro q hq
      have hcle : c.1 ≤ (if c.1 < d.1 then d else c).1 := by
        by_cases hcd : c.1 < d.1 <;> simp [hcd]
        exact le_of_lt hcd
      have hdle : d.1 ≤ (if c.1 < d.1 then d else c).1 := by
        by_cases hcd : c.1 < d.1 <;> simp [hcd]
        exact le_of_not_lt hcd
      have hstepb := hbound _ (List.mem_cons_self (if c.1 < d.1 then d else c) ds)
      rcases List.mem_cons.mp hq with rfl | hq
      · exact le_trans hcle hstepb
      · rcases List.mem_cons.mp hq with rfl | hq
        · exact le_trans hdle hstepb
        · exact hbound q (List.mem_cons_of_mem _ hq)

/-- C4: the baseline survival at the 10-year horizon is the survival value of
a curve point of greatest time ≤ 10; with no such point it defaults to 1 with
a logged warning.  In particular the curve `[(0,1),(5,0.98),(12,0.90)]`
resolves to `0.98` and the curve `[(15,0.80)]` to `1` with the warning. -/
theorem claim_C4_baseline_selection (rows : List (Option ℚ × Option ℚ)) :
    ((∃ p ∈ survivalPoints rows, p.1 ≤ 10) →
      ∃ p ∈ survivalCandidates rows,
        baselineSurvivalAt10 rows = (p.2, false) ∧
        ∀ q ∈ survivalCandidates rows, q.1 ≤ p.1) ∧
    ((∀ p ∈ survivalPoints rows, ¬ p.1 ≤ 10) →
      baselineSurvivalAt10 rows = (1, true)) ∧
    baselineSurvivalAt10
      [(some 0, some 1), (some 5, some (49/50)), (some 12, some (9/10))] =
      (49/50, false) ∧
    baselineSurvivalAt10 [(some 15, some (4/5))] = (1, true) := by
  refine ⟨?_, ?_,
    by norm_num [baselineSurvivalAt10, survivalCandidates, survivalPoints,
      lastStep, List.filterMap_cons, List.filter_cons],
    by norm_num [baselineSurvivalAt10, survivalCandidates, survivalPoints,
      lastStep, List.filterMap_cons, List.filter_cons]⟩
  · rintro ⟨p, hp, hp10⟩
    have hpc : p ∈ survivalCandidates rows := by
      rw [survivalCandidates, List.mem_filter]
      exact ⟨hp, by simpa using hp10⟩
    rcases hc : survivalCandidates rows with _ | ⟨c, cs⟩
    · rw [hc] at hpc
      simp at hpc
    · obtain ⟨hmem, hbound⟩ := foldl_lastStep_spec cs c
      refine ⟨_, hmem, ?_, hbound⟩
      simp only [baselineSurvivalAt10, hc, lastStep]
  · intro h
    have hcand : survivalCandidates rows = [] := by
      rw [survivalCandidates, List.filter_eq_nil_iff]
      intro p hp
      simpa using h p hp
    rw [baselineSurvivalAt10, hcand]
    rfl

/-- Witness for C4 at the claim's first concrete curve, whose resolved
baseline is the 5-year point `0.98`. -/
theorem claim_C4_witness :
    (∃ p ∈ survivalPoints
        [(some 0, some 1), (some 5, some (49/50)), (some 12, some (9/10))],
      p.1 ≤ 10) ∧
    ∃ p ∈ survivalCandidates
        [(some 0, some 1), (some 5, some (49/50)), (some 12, some (9/10))],
      baselineSurvivalAt10
          [(some 0, some 1), (some 5, some (49/50)), (some 12, some (9/10))] =
        (p.2, false) ∧
      ∀ q ∈ survivalCandidates
          [(some 0, some 1), (some 5, some (49/50)), (some 12, some (9/10))],
        q.1 ≤ p.1 :=
  ⟨⟨(0, 1), by simp [survivalPoints, List.filterMap_cons], by norm_num⟩,
    (claim_C4_baseline_selection
      [(some 0, some 1), (some 5, some (49/50)), (some 12, some (9/10))]).1
      ⟨(0, 1), by simp [survivalPoints, List.filterMap_cons], by norm_num⟩⟩

/-! ### Facts about the map operations and the pipeline loops -/

theorem lookupKV_setKV_self {α : Type*} (l : List (String × α)) (k : String)
    (v : α) : lookupKV (setKV l k v) k = some v := by
  induction l with
  | nil => simp [setKV, lookupKV]
  | cons p rest ih =>
    obtain ⟨k', v'⟩ := p
    by_cases h : k' = k
    · simp [setKV, h, lookupKV]
    · simp [setKV, h, lookupKV, ih]

theorem lookupKV_setKV_other {α : Type*} (l : List (String × α))
    {k k' : String} (v : α) (h : k' ≠ k) :
    lookupKV (setKV l k v) k' = lookupKV l k' := by
  have hne : ¬(k = k') := fun hh => h hh.symm
  induction l with
  | nil =>
    simp only [setKV, lookupKV]
    rw [if_neg hne]
  | cons p rest ih =>
    obtain ⟨k0, v0⟩ := p
    by_cases h0 : k0 = k
    · subst h0
      rw [setKV, if_pos rfl, lookupKV, lookupKV, if_neg hne, if_neg hne]
    · rw [setKV, if_neg h0, lookupKV, lookupKV]
      by_cases h1 : k0 = k'
      · rw [if_pos h1, if_pos h1]
      · rw [if_neg h1, if_neg h1, ih]

theorem resolveLoop_mem_of_error {pm : PercentileMap} {d : String} :
    ∀ {vars : List String} {parsed : List (String × ℚ)} {v : String},
      resolveLoop pm d vars parsed = .error v → v ∈ vars := by
  intro vars
  induction vars with
  | nil =>
    intro parsed v h
    simp [resolveLoop] at h
  | cons w rest ih =>
    intro parsed v h
    rw [resolveLoop] at h
    rcases hl : lookupKV parsed w with _ | r <;> simp only [hl] at h
    · rw [Except.error.injEq] at h
      rw [← h]
      exact List.mem_cons_self _ _
    rcases hr : resolvePercentile pm d w r with _ | score <;>
      simp only [hr] at h
    · rw [Except.error.injEq] at h
      rw [← h]
      exact List.mem_cons_self _ _
    · exact List.mem_cons_of_mem _ (ih h)

theorem resolveLoop_preserves {pm : PercentileMap} {d : String} :
    ∀ {vars : List String} {parsed parsed' : List (String × ℚ)} {k : String},
      k ∉ vars → resolveLoop pm d vars parsed = .ok parsed' →
      lookupKV parsed' k = lookupKV parsed k := by
  intro vars
  induction vars with
  | nil =>
    intro parsed parsed' k _ h
    rw [resolveLoop, Except.ok.injEq] at h
    rw [h]
  | cons w rest ih =>
    intro parsed parsed' k hk h
    rw [resolveLoop] at h
    rcases hl : lookupKV parsed w with _ | r
    · simp only [hl] at h
      exact Except.noConfusion h
    simp only [hl] at h
    rcases hr : resolvePercentile pm d w r with _ | score
    · simp only [hr] at h
      exact Except.noConfusion h
    simp only [hr] at h
    have hk1 : k ∉ rest := fun hh => hk (List.mem_cons_of_mem _ hh)
    have hkw : k ≠ w := fun hh => hk (hh ▸ List.mem_cons_self _ _)
    rw [ih hk1 h, lookupKV_setKV_other _ _ hkw]

theorem resolveLoop_ok_spec {pm : PercentileMap} {d : String} :
    ∀ {vars : List String} {parsed parsed' : List (String × ℚ)}, vars.Nodup →
      resolveLoop pm d vars parsed = .ok parsed' →
      ∀ s ∈ vars, ∃ r val, lookupKV parsed s = some r ∧
        resolvePercentile pm d s r = some val ∧
        lookupKV parsed' s = some val := by
  intro vars
  induction vars with
  | nil =>
    intro _ _ _ _ s hs
    simp at hs
  | cons w rest ih =>
    intro parsed parsed' hnd h s hs
    obtain ⟨hw, hndr⟩ := List.nodup_cons.mp hnd
    rw [resolveLoop] at h
    rcases hl : lookupKV parsed w with _ | r
    · simp only [hl] at h
      exact Except.noConfusion h
    simp only [hl] at h
    rcases hr : resolvePercentile pm d w r with _ | score
    · simp only [hr] at h
      exact Except.noConfusion h
    simp only [hr] at h
    rcases List.mem_cons.mp hs with rfl | hs
    · refine ⟨r, score, hl, hr, ?_⟩
      rw [resolveLoop_preserves hw h, lookupKV_setKV_self]
    · obtain ⟨r', val, h1, h2, h3⟩ := ih hndr h s hs
      have hsw : s ≠ w := fun hh => hw (hh ▸ hs)
      rw [lookupKV_setKV_other _ _ hsw] at h1
      exact ⟨r', val, h1, h2, h3⟩

theorem resolvePercentile_some_iff (pm : PercentileMap) (d s : String)
    (r val : ℚ) :
    resolvePercentile pm d s r = some val ↔
      ∃ byScore byRank, lookupKV pm d = some byScore ∧
        lookupKV byScore s = some byRank ∧ lookupRank byRank r = some val := by
  rw [resolvePercentile]
  rcases h1 : lookupKV pm d with _ | byScore
  · simp
  rcases h2 : lookupKV byScore s with _ | byRank
  · simp [h2]
  · simp [h2]

/-- C1 (amended): which text the `#disease-risk` area shows after each
failure kind.  A non-numeric required field aborts before the area is
touched, leaving its previous content; a percentile lookup failure aborts
leaving the in-progress marker `'Calculating...'` displayed; only a scaling
failure resets the area to the neutral placeholder `'--'`.  In every failure
case an alert is raised and no risk value is displayed. -/
theorem claim_C1_failure_ui_states :
    (∀ S E P tbl disease checked flags initRisk k,
      parseForm checked = .error k →
      calculateRisk S E P tbl disease checked flags initRisk =
        ⟨initRisk, some (parseErrorMsg k)⟩) ∧
    (∀ S E P tbl disease checked flags initRisk pc v,
      parseForm checked = .ok pc →
      resolveLoop tbl.percentileMap disease percentileVars
        (expandEthnicity (pc ++ flags)) = .error v →
      calculateRisk S E P tbl disease checked flags initRisk =
        ⟨"Calculating...", some (percentileErrorMsg v)⟩) ∧
    (∀ S E P tbl disease checked flags initRisk pc parsed e,
      parseForm checked = .ok pc →
      resolveLoop tbl.percentileMap disease percentileVars
        (expandEthnicity (pc ++ flags)) = .ok parsed →
      scaleLoop S tbl.panelScalerParams parsed panelVars = .error e →
      calculateRisk S E P tbl disease checked flags initRisk =
        ⟨"--", some (scaleErrorMsg e)⟩) := by
  refine ⟨?_, ?_, ?_⟩
  · intro S E P tbl disease checked flags initRisk k hk
    simp only [calculateRisk, hk]
  · intro S E P tbl disease checked flags initRisk pc v hok herr
    simp only [calculateRisk, hok, herr]
  · intro S E P tbl disease checked flags initRisk pc parsed e hok hres hsc
    simp only [calculateRisk, hok, hres, hsc]

/-- Witness for C1's amended statement: a concrete run whose scaling
parameters are missing ends with the `'--'` placeholder. -/
theorem claim_C1_witness :
    calculateRisk id (fun q => .fin q) (fun _ _ => .nan)
        ⟨[("cad", [("townsend", [((50 : ℚ), 1)]), ("prs", [(50, 1)]),
          ("metscore", [(50, 1)]), ("proscore", [(50, 1)])])], [], [], []⟩
        "cad"
        [("townsend", some 50), ("prs", some 50), ("metscore", some 50),
         ("proscore", some 50)]
        [] "12.3%" =
      ⟨"--", some (scaleErrorMsg (.missing "age"))⟩ :=
  (claim_C1_failure_ui_states.2.2) id (fun q => .fin q) (fun _ _ => .nan)
    ⟨[("cad", [("townsend", [((50 : ℚ), 1)]), ("prs", [(50, 1)]),
      ("metscore", [(50, 1)]), ("proscore", [(50, 1)])])], [], [], []⟩
    "cad"
    [("townsend", some 50), ("prs", some 50), ("metscore", some 50),
     ("proscore", some 50)]
    [] "12.3%"
    [("townsend", (50 : ℚ)), ("prs", 50), ("metscore", 50), ("proscore", 50)]
    [("townsend", (1 : ℚ)), ("prs", 1), ("metscore", 1), ("proscore", 1),
     ("ethnicity_1.0", 0), ("ethnicity_2.0", 0), ("ethnicity_3.0", 0)]
    (.missing "age") rfl rfl rfl

/-- C1 counterexample: a calculation-time failure (here a percentile lookup
failure against an empty percentile table) leaves the risk area showing the
in-progress marker `'Calculating...'`, not the neutral placeholder `'--'`:
the UI result area is not reset on every failure. -/
theorem claim_C1_counterexample :
    (calculateRisk id (fun q => .fin q) (fun _ _ => .nan) ⟨[], [], [], []⟩
        "cad" [] [] "12.3%").diseaseRisk = "Calculating..." ∧
    (calculateRisk id (fun q => .fin q) (fun _ _ => .nan) ⟨[], [], [], []⟩
        "cad" [] [] "12.3%").diseaseRisk ≠ "--" := by
  constructor
  · decide
  · decide

/-- C2: percentile resolution is strict.  A value is returned only through a
complete chain of present keys (no defaulting to 0 or a nearest rank); an
error names a variable of the loop; a failing loop aborts the whole
calculation with a user-facing message containing the offending score name,
and no risk is displayed; a succeeding loop stores exactly the table's value
for every score variable. -/
theorem claim_C2_percentile_lookup_strict :
    (∀ pm d s r val, resolvePercentile pm d s r = some val ↔
      ∃ byScore byRank, lookupKV pm d = some byScore ∧
        lookupKV byScore s = some byRank ∧ lookupRank byRank r = some val) ∧
    (∀ pm d vars parsed v, resolveLoop pm d vars parsed = .error v →
      v ∈ vars) ∧
    (∀ S E P tbl disease checked flags initRisk pc v,
      parseForm checked = .ok pc →
      resolveLoop tbl.percentileMap disease percentileVars
        (expandEthnicity (pc ++ flags)) = .error v →
      calculateRisk S E P tbl disease checked flags initRisk =
        ⟨"Calculating...", some (percentileErrorMsg v)⟩ ∧
      ∃ pre suf, percentileErrorMsg v = pre ++ v ++ suf) ∧
    (∀ pm d parsed parsed',
      resolveLoop pm d percentileVars parsed = .ok parsed' →
      ∀ s ∈ percentileVars, ∃ r val, lookupKV parsed s = some r ∧
        resolvePercentile pm d s r = some val ∧
        lookupKV parsed' s = some val) := by
  refine ⟨resolvePercentile_some_iff, fun pm d vars parsed v h =>
    resolveLoop_mem_of_error h, ?_, ?_⟩
  · intro S E P tbl disease checked flags initRisk pc v hok herr
    refine ⟨?_, "Could not find percentile mapping for ",
      " for the selected disease. Please check the percentiles.csv file.",
      rfl⟩
    simp only [calculateRisk, hok, herr]
  · intro pm d parsed parsed' h
    exact resolveLoop_ok_spec (by decide) h

/-- Witness for C2: a concrete run whose `prs` rank is absent from the
percentile table aborts with the `prs`-naming message, leaving no risk
displayed. -/
theorem claim_C2_witness :
    (calculateRisk id (fun q => .fin q) (fun _ _ => .nan)
        ⟨[("stroke", [("townsend", [((50 : ℚ), 1)]), ("prs", [(49, 1)]),
          ("metscore", [(50, 1)]), ("proscore", [(50, 1)])])], [], [], []⟩
        "stroke"
        [("townsend", some 50), ("prs", some 50), ("metscore", some 50),
         ("proscore", some 50)]
        [] "" =
      ⟨"Calculating...", some (percentileErrorMsg "prs")⟩) ∧
    ∃ pre suf, percentileErrorMsg "prs" = pre ++ "prs" ++ suf :=
  (claim_C2_percentile_lookup_strict.2.2.1 id (fun q => .fin q)
    (fun _ _ => .nan)
    ⟨[("stroke", [("townsend", [((50 : ℚ), 1)]), ("prs", [(49, 1)]),
      ("metscore", [(50, 1)]), ("proscore", [(50, 1)])])], [], [], []⟩
    "stroke"
    [("townsend", some 50), ("prs", some 50), ("metscore", some 50),
     ("proscore", some 50)]
    [] ""
    [("townsend", (50 : ℚ)), ("prs", 50), ("metscore", 50), ("proscore", 50)]
    "prs" rfl rfl)

/-! ### Facts about the scaling loop -/

theorem scaleLoop_ok_spec {S : ℚ → ℚ} {params : List (String × ℚ × ℚ)}
    {parsed : List (String × ℚ)} :
    ∀ {vars : List String} {scaled : List (String × ℚ)},
      scaleLoop S params parsed vars = .ok scaled →
      ∀ v ∈ vars, ∃ mean variance,
        lookupKV params v = some (mean, variance) ∧ S variance ≠ 0 ∧
        lookupKV scaled v =
          some (((lookupKV parsed v).getD 0 - mean) / S variance) := by
  intro vars
  induction vars with
  | nil =>
    intro scaled _ v hv
    simp at hv
  | cons w rest ih =>
    intro scaled h v hv
    rw [scaleLoop] at h
    rcases hp : lookupKV params w with _ | ⟨mw, vw⟩
    · simp only [hp] at h
      exact Except.noConfusion h
    simp only [hp] at h
    by_cases hz : S vw = 0
    · rw [if_pos hz] at h
      exact Except.noConfusion h
    rw [if_neg hz] at h
    rcases hrest : scaleLoop S params parsed rest with e | scaledRest
    · rw [hrest] at h
      exact Except.noConfusion h
    rw [hrest] at h
    simp only [Except.map] at h
    rw [Except.ok.injEq] at h
    subst h
    by_cases hvw : w = v
    · subst hvw
      refine ⟨mw, vw, hp, hz, ?_⟩
      rw [lookupKV, if_pos rfl]
    · obtain ⟨m', v', h1, h2, h3⟩ := ih hrest v (by
        rcases List.mem_cons.mp hv with rfl | hv
        · exact absurd rfl hvw
        · exact hv)
      refine ⟨m', v', h1, h2, ?_⟩
      rw [lookupKV, if_neg hvw, h3]

theorem scaleLoop_degenerate {S : ℚ → ℚ} {params : List (String × ℚ × ℚ)}
    {parsed : List (String × ℚ)} {v : String} {mean : ℚ}
    (hS0 : S 0 = 0) (hv : lookupKV params v = some (mean, 0)) :
    ∀ pre post,
      (∀ w ∈ pre, ∃ mw vw, lookupKV params w = some (mw, vw) ∧ S vw ≠ 0) →
      scaleLoop S params parsed (pre ++ v :: post) =
        .error (.degenerate v) := by
  intro pre
  induction pre with
  | nil =>
    intro post _
    rw [List.nil_append, scaleLoop]
    simp only [hv]
    rw [if_pos hS0]
  | cons w ws ih =>
    intro post hpre
    obtain ⟨mw, vw, hw, hSw⟩ := hpre w (List.mem_cons_self _ _)
    rw [List.cons_append, scaleLoop]
    simp only [hw]
    rw [if_neg hSw, ih post (fun u hu => hpre u (List.mem_cons_of_mem _ hu))]
    rfl

theorem scaleLoop_missing {S : ℚ → ℚ} {params : List (String × ℚ × ℚ)}
    {parsed : List (String × ℚ)} {v : String}
    (hv : lookupKV params v = none) :
    ∀ pre post,
      (∀ w ∈ pre, ∃ mw vw, lookupKV params w = some (mw, vw) ∧ S vw ≠ 0) →
      scaleLoop S params parsed (pre ++ v :: post) = .error (.missing v) := by
  intro pre
  induction pre with
  | nil =>
    intro post _
    rw [List.nil_append, scaleLoop]
    simp only [hv]
  | cons w ws ih =>
    intro post hpre
    obtain ⟨mw, vw, hw, hSw⟩ := hpre w (List.mem_cons_self _ _)
    rw [List.cons_append, scaleLoop]
    simp only [hw]
    rw [if_neg hSw, ih post (fun u hu => hpre u (List.mem_cons_of_mem _ hu))]
    rfl

theorem scaleErrorMsg_degenerate_ne_missing (v w : String) :
    scaleErrorMsg (.degenerate v) ≠ scaleErrorMsg (.missing w) := by
  intro h
  rw [scaleErrorMsg, scaleErrorMsg] at h
  have h1 := congrArg (fun s : String => s.data.take 25) h
  simp only [String.data_append] at h1
  rw [List.append_assoc, List.append_assoc,
    List.take_append_of_le_length (by decide),
    List.take_append_of_le_length (by decide)] at h1
  exact absurd h1 (by decide)

/-- C8: with `S 0 = 0` and `S q ≠ 0` for `q ≠ 0` (the exactly specified
behaviour of `Math.sqrt` on the rationals), a zero-variance feature fails
with the degenerate-scale error before its scale is used in any arithmetic,
a feature without scaler parameters fails with the missing-parameters error,
both abort the calculation with the `'--'` placeholder and an alert (no
partial result), the two messages are distinguishable, and a successful
scaling pass used a nonzero scale for every feature. -/
theorem claim_C8_scaler_failures :
    (∀ (S : ℚ → ℚ) params parsed vars scaled,
      scaleLoop S params parsed vars = .ok scaled →
      ∀ v ∈ vars, ∃ mean variance,
        lookupKV params v = some (mean, variance) ∧ S variance ≠ 0 ∧
        lookupKV scaled v =
          some (((lookupKV parsed v).getD 0 - mean) / S variance)) ∧
    (∀ (S : ℚ → ℚ) params parsed v mean pre post, S 0 = 0 →
      lookupKV params v = some (mean, 0) →
      (∀ w ∈ pre, ∃ mw vw, lookupKV params w = some (mw, vw) ∧ S vw ≠ 0) →
      scaleLoop S params parsed (pre ++ v :: post) =
        .error (.degenerate v)) ∧
    (∀ (S : ℚ → ℚ) params parsed v pre post,
      lookupKV params v = none →
      (∀ w ∈ pre, ∃ mw vw, lookupKV params w = some (mw, vw) ∧ S vw ≠ 0) →
      scaleLoop S params parsed (pre ++ v :: post) = .error (.missing v)) ∧
    (∀ S E P tbl disease checked flags initRisk pc parsed e,
      parseForm checked = .ok pc →
      resolveLoop tbl.percentileMap disease percentileVars
        (expandEthnicity (pc ++ flags)) = .ok parsed →
      scaleLoop S tbl.panelScalerParams parsed panelVars = .error e →
      calculateRisk S E P tbl disease checked flags initRisk =
        ⟨"--", some (scaleErrorMsg e)⟩) ∧
    (∀ v w, scaleErrorMsg (.degenerate v) ≠ scaleErrorMsg (.missing w)) := by
  refine ⟨fun S params parsed vars scaled h => scaleLoop_ok_spec h,
    fun S params parsed v mean pre post hS0 hv hpre =>
      scaleLoop_degenerate hS0 hv pre post hpre,
    fun S params parsed v pre post hv hpre =>
      scaleLoop_missing hv pre post hpre,
    ?_, scaleErrorMsg_degenerate_ne_missing⟩
  intro S E P tbl disease checked flags initRisk pc parsed e hok hres hsc
  simp only [calculateRisk, hok, hres, hsc]

/-- Witness for C8: a concrete scaler table whose `age` row has variance 0
makes the scaling loop fail with the degenerate-scale error on `age`. -/
theorem claim_C8_witness :
    scaleLoop (fun q => if q = 0 then 0 else 1) [("age", ((50 : ℚ), 0))] []
        ([] ++ "age" :: ["sbp"]) = .error (.degenerate "age") :=
  claim_C8_scaler_failures.2.1 (fun q => if q = 0 then 0 else 1)
    [("age", ((50 : ℚ), 0))] [] "age" 50 [] ["sbp"] (by simp) rfl
    (by simp)

/-- C9 (amended): no step of the evaluator checks, catches or clamps
non-finite values — but non-finiteness of the linear predictor does not
always propagate to the result.  A `NaN` linear predictor yields a `NaN`
risk displayed as `"NaN%"`; a `-∞` linear predictor yields the finite risk
`0` (since `exp(-∞) = 0` and `pow(b, 0) = 1`); a `+∞` linear predictor with
baseline survival of magnitude below 1 yields the finite risk `1`. -/
theorem claim_C9_nonfinite_lp (E : ℚ → JSNum) (P : ℚ → ℚ → JSNum) (b : ℚ) :
    riskFromLP E P .nan (.fin b) = .nan ∧
    displayRisk (riskFromLP E P .nan (.fin b)) = "NaN%" ∧
    riskFromLP E P .ninf (.fin b) = .fin 0 ∧
    (|b| < 1 → riskFromLP E P .inf (.fin b) = .fin 1) := by
  refine ⟨rfl, rfl, ?_, ?_⟩
  · rw [riskFromLP]
    show jsSub (.fin 1) (jsPow P (.fin b) (.fin 0)) = .fin 0
    rw [jsPow]
    norm_num [jsSub]
  · intro hb
    rw [riskFromLP]
    show jsSub (.fin 1) (jsPow P (.fin b) .inf) = .fin 1
    rw [jsPow, if_neg (by intro h; rw [h] at hb; exact absurd hb (by norm_num)),
      if_pos hb]
    norm_num [jsSub]

/-- Witness for C9's amended statement at baseline survival `0.95`. -/
theorem claim_C9_witness :
    (|((19 : ℚ) / 20)| < 1) ∧
    riskFromLP (fun q => .fin q) (fun _ _ => .nan) .inf (.fin (19 / 20)) =
      .fin 1 :=
  ⟨by rw [abs_lt]; constructor <;> norm_num,
    (claim_C9_nonfinite_lp (fun q => .fin q) (fun _ _ => .nan) (19 / 20)).2.2.2
      (by rw [abs_lt]; constructor <;> norm_num)⟩

/-- C9 counterexample: a non-finite linear predictor (`-∞`, reachable from a
corrupt coefficient) produces a *finite* computed risk: `exp(-∞) = 0`,
`pow(0.95, 0) = 1`, risk `= 0`, displayed as `"0.0%"` — so the claim that the
risk result is always non-finite and propagates as-is fails. -/
theorem claim_C9_counterexample :
    JSNum.ninf.isFinite = false ∧
    riskFromLP (fun q => .fin q) (fun _ _ => .nan) .ninf (.fin (19 / 20)) =
      .fin 0 ∧
    (riskFromLP (fun q => .fin q) (fun _ _ => .nan) .ninf
      (.fin (19 / 20))).isFinite = true ∧
    displayRisk (riskFromLP (fun q => .fin q) (fun _ _ => .nan) .ninf
      (.fin (19 / 20))) = "0.0%" := by
  have h : riskFromLP (fun q => .fin q) (fun _ _ => .nan) .ninf
      (.fin (19 / 20)) = .fin 0 := by
    rw [riskFromLP]
    show jsSub (.fin 1) (jsPow (fun _ _ => .nan) (.fin (19 / 20)) (.fin 0)) =
      .fin 0
    rw [jsPow]
    norm_num [jsSub]
  refine ⟨rfl, h, by rw [h]; rfl, ?_⟩
  rw [h, displayRisk, jsMul, jsToFixed1, ratToFixed1]
  norm_num
  decide

end CardioScore
